import Mathlib

/-!
Verification development for the ai-agent-otelAI repository.

The development shallowly embeds the three leaf components the specification
is about:

* the code extractor `_extract_code_from_response`
  (src/backend/helpers/code_executor.py, lines 8-11; the copy in
  src/backend/code_executor.py, lines 5-10, is textually identical),
* the sandbox executor `_execute_function_safely_using_exec`
  (src/backend/helpers/code_executor.py, lines 14-71), together with the
  whitelist dictionaries of both executor variants,
* the sheet reader `_read_sheet_with_custom_header`
  (src/backend/helpers/excel_file_reader.py, lines 21-97).

Python strings are modelled as `String` / `List Char`; Python dictionaries as
association lists with most-recent-binding-first lookup; exceptions as
`Except` with structured or textual payloads.
-/

namespace OtelAI

/-! ### Python string primitives

`str.strip()` with no argument removes the ASCII whitespace characters
space, tab, newline, carriage return, vertical tab and form feed (plus some
further Unicode whitespace, which does not occur in any input considered
here). `str.lower()` is modelled by `Char.toLower`, which agrees with Python
on ASCII. -/

def isPyWs (c : Char) : Bool :=
  (c = ' ') || (c = '\t') || (c = '\n') || (c = '\r') || (c = '\x0b') || (c = '\x0c')

def trimLeft (l : List Char) : List Char := l.dropWhile isPyWs

def trimRight (l : List Char) : List Char := (l.reverse.dropWhile isPyWs).reverse

/-- Python `s.strip()` on the character list of `s`. -/
def pyStripList (l : List Char) : List Char := trimRight (trimLeft l)

def pyStrip (s : String) : String := ⟨pyStripList s.toList⟩

def pyLowerList (l : List Char) : List Char := l.map Char.toLower

/-! ### Code extractor

Embeds `_extract_code_from_response` (src/backend/helpers/code_executor.py):

    match = re.search(r"triple-backtick (?:python)? [ \t]* \r?\n capture lazily
                       up to the next triple-backtick", response)
    return match.group(1).strip() if match else response.strip()

The regular expression is compiled by hand.  After the literal three
backticks, the optional `python` group, the greedy `[ \t]*` and the optional
`\r` admit no backtracking that changes the outcome: whenever the branch that
consumes `python` fails, the branch that skips it fails as well (the next
character is then `p`, which is neither blank nor a newline), and symmetrically
a consumed `\r` must be followed by `\n` for either branch to succeed.  So the
opening-fence test is the deterministic `openRemainder` below.  The lazy
capture `([\s\S]*?)` followed by the closing backticks takes the text up to
the first later occurrence of three backticks (`takeBeforeTicks`), and
`re.search` takes the leftmost position at which the whole pattern matches
(`searchFence`). -/

def ticksList : List Char := ['`', '`', '`']

def startsTicks (l : List Char) : Bool := ticksList.isPrefixOf l

def isBlank (c : Char) : Bool := (c = ' ') || (c = '\t')

/-- The `\r?\n` tail of the opening fence pattern: chop an optional carriage
return followed by a newline off the front of `l`. -/
def newlineChop (l : List Char) : Option (List Char) :=
  if l.take 2 = ['\r', '\n'] then some (l.drop 2)
  else if l.take 1 = ['\n'] then some (l.drop 1)
  else none

/-- The part of the opening fence pattern after the three backticks: the
optional literal `python` tag, then `[ \t]*`, then `\r?\n`. -/
def openAfterTicks (rest : List Char) : Option (List Char) :=
  if rest.take 6 = ("python").toList then newlineChop ((rest.drop 6).dropWhile isBlank)
  else newlineChop (rest.dropWhile isBlank)

/-- The remainder of the input after a successful match of the opening fence
pattern (three backticks, optional `python` tag, horizontal blanks, newline)
at the head of `l`; `none` when the opening pattern does not match here. -/
def openRemainder (l : List Char) : Option (List Char) :=
  if startsTicks l then openAfterTicks (l.drop 3) else none

/-- Lazy capture: the characters before the first occurrence of three
consecutive backticks; `none` when no such occurrence exists. -/
def takeBeforeTicks : List Char → Option (List Char)
  | [] => none
  | c :: cs =>
    if startsTicks (c :: cs) then some []
    else (takeBeforeTicks cs).map (fun t => c :: t)

/-- The full fence pattern matched at the head of `l`: opening fence, then
capture up to a closing triple backtick. -/
def matchAt (l : List Char) : Option (List Char) :=
  (openRemainder l).bind takeBeforeTicks

/-- `re.search`: the capture of the leftmost position where the whole
pattern matches. -/
def searchFence : List Char → Option (List Char)
  | [] => none
  | c :: cs =>
    match matchAt (c :: cs) with
    | some cap => some cap
    | none => searchFence cs

/-- src/backend/helpers/code_executor.py, lines 8-11. -/
def _extract_code_from_response (response : String) : String :=
  match searchFence response.toList with
  | some cap => ⟨pyStripList cap⟩
  | none => ⟨pyStripList response.toList⟩

example : _extract_code_from_response ("```python\ncode\n```") = ("code") := by rfl
example : _extract_code_from_response ("```\nx = 1\n```") = ("x = 1") := by rfl
example : _extract_code_from_response ("  def f(): pass \n") = ("def f(): pass") := by rfl
example : _extract_code_from_response ("```js\ncode\n```") = ("```js\ncode\n```") := by rfl

/-- Modelled from the spec: section 4.1 describes the fenced block as "a
triple-backtick opening marker (optionally tagged with a language hint)" and a
triple-backtick closing marker, with no further constraint on the hint, and
the result as "the trimmed text strictly between the markers".  The language
hint is modelled as a run of characters that are neither whitespace nor a
backtick, absorbed into the opening marker.  This definition exists only to
be compared with `_extract_code_from_response`, which is the embedding of the
source. -/
def specOpenRemainder (l : List Char) : Option (List Char) :=
  match l with
  | '`' :: '`' :: '`' :: rest => some (rest.dropWhile (fun c => !(isPyWs c) && !(c = '`')))
  | _ => none

def specMatchAt (l : List Char) : Option (List Char) :=
  (specOpenRemainder l).bind takeBeforeTicks

def specSearchFence : List Char → Option (List Char)
  | [] => none
  | c :: cs =>
    match specMatchAt (c :: cs) with
    | some cap => some cap
    | none => specSearchFence cs

def extract_spec (response : String) : String :=
  match specSearchFence response.toList with
  | some cap => ⟨pyStripList cap⟩
  | none => ⟨pyStripList response.toList⟩

/-! Leftmost-match characterization of `searchFence`. -/

lemma searchFence_none_forall {l : List Char} (h : searchFence l = none) :
    ∀ n, matchAt (l.drop n) = none := by
  induction l with
  | nil => intro n; rw [List.drop_nil]; rfl
  | cons c cs ih =>
    intro n
    cases h0 : matchAt (c :: cs) with
    | some cap => simp [searchFence, h0] at h
    | none =>
      have h' : searchFence cs = none := by simpa [searchFence, h0] using h
      cases n with
      | zero => simpa using h0
      | succ m => rw [List.drop_succ_cons]; exact ih h' m

lemma searchFence_eq_none {l : List Char} (h : ∀ n, matchAt (l.drop n) = none) :
    searchFence l = none := by
  induction l with
  | nil => rfl
  | cons c cs ih =>
    have h0 : matchAt (c :: cs) = none := by simpa using h 0
    have h' : searchFence cs = none := by
      refine ih (fun n => ?_)
      have := h (n + 1)
      simpa [List.drop_succ_cons] using this
    simp [searchFence, h0, h']

lemma searchFence_some_leftmost {l : List Char} {cap : List Char}
    (h : searchFence l = some cap) :
    ∃ n, matchAt (l.drop n) = some cap ∧ ∀ m, m < n → matchAt (l.drop m) = none := by
  induction l with
  | nil => simp [searchFence] at h
  | cons c cs ih =>
    cases h0 : matchAt (c :: cs) with
    | some cap' =>
      have hc : cap' = cap := by simpa [searchFence, h0] using h
      subst hc
      exact ⟨0, by simpa using h0, fun m hm => absurd hm (Nat.not_lt_zero m)⟩
    | none =>
      have h' : searchFence cs = some cap := by simpa [searchFence, h0] using h
      obtain ⟨n, hn, hlt⟩ := ih h'
      refine ⟨n + 1, by simpa [List.drop_succ_cons] using hn, fun m hm => ?_⟩
      cases m with
      | zero => simpa using h0
      | succ k =>
        rw [List.drop_succ_cons]
        exact hlt k (Nat.lt_of_succ_lt_succ hm)

lemma extract_of_searchFence_some {s : String} {cap : List Char}
    (h : searchFence s.toList = some cap) :
    _extract_code_from_response s = ⟨pyStripList cap⟩ := by
  have h' : searchFence s.data = some cap := h
  simp [_extract_code_from_response, String.toList, h']

lemma extract_of_searchFence_none {s : String}
    (h : searchFence s.toList = none) :
    _extract_code_from_response s = ⟨pyStripList s.toList⟩ := by
  have h' : searchFence s.data = none := h
  simp [_extract_code_from_response, String.toList, h']

/-- C4, counterexample.  The claim asserts that any fenced block with an
arbitrary language hint is recognized.  On the input made of a fence tagged
`js` around the body `code`, the spec-modelled extractor returns `code`, but
the code recognizes only a bare or `python`-tagged opening fence followed by a
newline, so it falls back to returning the whole trimmed input, fence markers
included. -/
theorem extract_language_hint_counterexample :
    _extract_code_from_response ("```js\ncode\n```") = ("```js\ncode\n```")
    ∧ extract_spec ("```js\ncode\n```") = ("code")
    ∧ _extract_code_from_response ("```js\ncode\n```")
        ≠ extract_spec ("```js\ncode\n```") := by
  refine ⟨rfl, rfl, ?_⟩
  decide

/-- C4, amended.  `extract` is total over all strings (it is a Lean function
on `String`), and: it recognizes a fenced block only at the leftmost position
where three backticks, optionally the literal hint `python`, horizontal
blanks, and a newline are followed by a later closing triple backtick; there
it returns the trimmed capture.  When no position matches, it returns the
trimmed input unchanged. -/
theorem extract_amended (s : String) :
    ((∃ n, matchAt (s.toList.drop n) ≠ none) →
      ∃ n cap, matchAt (s.toList.drop n) = some cap
        ∧ (∀ m, m < n → matchAt (s.toList.drop m) = none)
        ∧ _extract_code_from_response s = ⟨pyStripList cap⟩)
    ∧ ((∀ n, matchAt (s.toList.drop n) = none) →
      _extract_code_from_response s = ⟨pyStripList s.toList⟩) := by
  constructor
  · rintro ⟨n, hn⟩
    cases hs : searchFence s.toList with
    | none => exact absurd (searchFence_none_forall hs n) hn
    | some cap =>
      obtain ⟨k, hk, hlt⟩ := searchFence_some_leftmost hs
      exact ⟨k, cap, hk, hlt, extract_of_searchFence_some hs⟩
  · intro h
    exact extract_of_searchFence_none (searchFence_eq_none h)

/-- Witness for `extract_amended` at the fenced input around body `x`. -/
theorem extract_amended_witness :
    ∃ n cap, matchAt ((("```python\nx\n```") : String).toList.drop n) = some cap
      ∧ (∀ m, m < n → matchAt ((("```python\nx\n```") : String).toList.drop m) = none)
      ∧ _extract_code_from_response ("```python\nx\n```") = ⟨pyStripList cap⟩ :=
  (extract_amended ("```python\nx\n```")).1 ⟨0, by decide⟩

/-! ### Idempotence of the extractor

The key facts: a capture produced by `takeBeforeTicks` contains no run of
three backticks, so stripping it and searching it again finds nothing; and
when no match exists, stripping the input cannot create one, because a match
inside an infix of the input would also be a match inside the input. -/

lemma startsTicks_iff {l : List Char} :
    startsTicks l = true ↔ ∃ t, l = '`' :: '`' :: '`' :: t := by
  constructor
  · intro h
    obtain ⟨t, ht⟩ := List.isPrefixOf_iff_prefix.mp h
    exact ⟨t, by simpa [ticksList] using ht.symm⟩
  · rintro ⟨t, rfl⟩
    simp [startsTicks, ticksList, List.isPrefixOf]

lemma startsTicks_append {l : List Char} (ext : List Char) (h : startsTicks l = true) :
    startsTicks (l ++ ext) = true := by
  obtain ⟨t, rfl⟩ := startsTicks_iff.mp h
  exact startsTicks_iff.mpr ⟨t ++ ext, rfl⟩

/-- No suffix of `l` begins with three backticks. -/
def NoTicks (l : List Char) : Prop := ∀ n, startsTicks (l.drop n) = false

lemma takeBeforeTicks_decomp {l cap : List Char} (h : takeBeforeTicks l = some cap) :
    ∃ rest, l = cap ++ rest ∧ startsTicks rest = true := by
  induction l generalizing cap with
  | nil => simp [takeBeforeTicks] at h
  | cons c cs ih =>
    cases hct : startsTicks (c :: cs) with
    | true =>
      have hcap : cap = [] := by simpa [takeBeforeTicks, hct] using h.symm
      exact ⟨c :: cs, by simp [hcap], hct⟩
    | false =>
      have h' : (takeBeforeTicks cs).map (fun t => c :: t) = some cap := by
        simpa [takeBeforeTicks, hct] using h
      obtain ⟨t, ht, hcap⟩ := Option.map_eq_some'.mp h'
      obtain ⟨rest, hrest, hst⟩ := ih ht
      exact ⟨rest, by simp [← hcap, hrest], hst⟩

lemma takeBeforeTicks_noTicks {l cap : List Char} (h : takeBeforeTicks l = some cap) :
    NoTicks cap := by
  induction l generalizing cap with
  | nil => simp [takeBeforeTicks] at h
  | cons c cs ih =>
    cases hct : startsTicks (c :: cs) with
    | true =>
      have hcap : cap = [] := by simpa [takeBeforeTicks, hct] using h.symm
      intro n
      subst hcap
      rw [List.drop_nil]
      simp [startsTicks, ticksList, List.isPrefixOf]
    | false =>
      have h' : (takeBeforeTicks cs).map (fun t => c :: t) = some cap := by
        simpa [takeBeforeTicks, hct] using h
      obtain ⟨t, ht, hcap⟩ := Option.map_eq_some'.mp h'
      subst hcap
      intro n
      cases n with
      | succ m => rw [List.drop_succ_cons]; exact ih ht m
      | zero =>
        rw [List.drop_zero]
        cases hcl : startsTicks (c :: t) with
        | false => rfl
        | true =>
          obtain ⟨t', ht'⟩ := startsTicks_iff.mp hcl
          obtain ⟨hc, htt⟩ : c = '`' ∧ t = '`' :: '`' :: t' := by
            constructor <;> [exact (List.cons.injEq .. ▸ ht').1; exact (List.cons.injEq .. ▸ ht').2]
          obtain ⟨rest, hrest, -⟩ := takeBeforeTicks_decomp ht
          have : startsTicks (c :: cs) = true := by
            refine startsTicks_iff.mpr ⟨t' ++ rest, ?_⟩
            simp [hrest, htt, hc]
          simp [this] at hct

lemma openRemainder_none_of_not_ticks {l : List Char} (h : startsTicks l = false) :
    openRemainder l = none := by
  simp [openRemainder, h]

lemma searchFence_none_of_noTicks {l : List Char} (h : NoTicks l) :
    searchFence l = none := by
  refine searchFence_eq_none (fun n => ?_)
  unfold matchAt
  rw [openRemainder_none_of_not_ticks (h n)]
  rfl

lemma noTicks_append_right {a b : List Char} (h : NoTicks (a ++ b)) : NoTicks b := by
  intro n
  have := h (a.length + n)
  rwa [List.drop_append] at this

lemma noTicks_append_left {a b : List Char} (h : NoTicks (a ++ b)) : NoTicks a := by
  intro n
  by_cases hn : n ≤ a.length
  · cases hst : startsTicks (a.drop n) with
    | false => rfl
    | true =>
      have h1 : startsTicks ((a ++ b).drop n) = true := by
        rw [List.drop_append_of_le_length hn]
        exact startsTicks_append b hst
      simp [h n] at h1
  · rw [List.drop_eq_nil_of_le (Nat.le_of_not_le hn)]
    simp [startsTicks, ticksList, List.isPrefixOf]

lemma trimLeft_suffix_decomp (l : List Char) : ∃ a, l = a ++ trimLeft l :=
  ⟨l.takeWhile isPyWs, (List.takeWhile_append_dropWhile isPyWs l).symm⟩

lemma trimRight_prefix_decomp (l : List Char) : ∃ b, l = trimRight l ++ b := by
  refine ⟨(l.reverse.takeWhile isPyWs).reverse, ?_⟩
  conv_lhs => rw [← List.reverse_reverse l,
    ← List.takeWhile_append_dropWhile (p := isPyWs) (l := l.reverse)]
  rw [List.reverse_append]
  rfl

lemma noTicks_pyStrip {l : List Char} (h : NoTicks l) : NoTicks (pyStripList l) := by
  obtain ⟨a, ha⟩ := trimLeft_suffix_decomp l
  have h1 : NoTicks (trimLeft l) := noTicks_append_right (ha ▸ h)
  obtain ⟨b, hb⟩ := trimRight_prefix_decomp (trimLeft l)
  exact noTicks_append_left (hb ▸ h1)

lemma dropWhile_self {p : α → Bool} (l : List α) :
    (l.dropWhile p).dropWhile p = l.dropWhile p := by
  induction l with
  | nil => rfl
  | cons c cs ih =>
    cases hp : p c with
    | true => simpa [List.dropWhile_cons, hp] using ih
    | false => simp [List.dropWhile_cons, hp]

lemma trimLeft_idem (l : List Char) : trimLeft (trimLeft l) = trimLeft l :=
  dropWhile_self l

lemma trimRight_idem (l : List Char) : trimRight (trimRight l) = trimRight l := by
  unfold trimRight
  rw [List.reverse_reverse, dropWhile_self]

lemma trimLeft_of_trimmed {l : List Char} (h : trimLeft l = l) :
    trimLeft (trimRight l) = trimRight l := by
  obtain ⟨b, hb⟩ := trimRight_prefix_decomp l
  cases hr : trimRight l with
  | nil => rfl
  | cons c r =>
    have hc : isPyWs c = false := by
      cases hws : isPyWs c with
      | false => rfl
      | true =>
        have hl : l = c :: (r ++ b) := by rw [hb, hr]; rfl
        have : trimLeft l = (r ++ b).dropWhile isPyWs := by
          rw [hl]; simp [trimLeft, List.dropWhile_cons, hws]
        have hlen := (List.dropWhile_sublist (l := r ++ b) isPyWs).length_le
        have : l.length ≤ (r ++ b).length := by
          conv_lhs => rw [← h, this]
          exact hlen
        simp [hl] at this
    simp [trimLeft, List.dropWhile_cons, hc]

lemma pyStripList_idem (l : List Char) : pyStripList (pyStripList l) = pyStripList l := by
  unfold pyStripList
  rw [trimLeft_of_trimmed (trimLeft_idem l), trimRight_idem]

/-! Extension lemmas: a successful match at the head of a list is still a
successful match with the same capture after appending further characters,
which lets a match inside an infix of the input be transported to the input
itself. -/

lemma newlineChop_ne_nil {l r : List Char} (h : newlineChop l = some r) : l ≠ [] := by
  rintro rfl
  simp [newlineChop] at h

lemma newlineChop_append {l r : List Char} (ext : List Char) (h : newlineChop l = some r) :
    newlineChop (l ++ ext) = some (r ++ ext) := by
  by_cases h2 : l.take 2 = ['\r', '\n']
  · have hlen : 2 ≤ l.length := by
      have := congrArg List.length h2
      simp [List.length_take] at this
      omega
    have h2' : (l ++ ext).take 2 = ['\r', '\n'] := by
      rw [List.take_append_of_le_length hlen]; exact h2
    have hr : some r = some (l.drop 2) := by simpa [newlineChop, h2] using h.symm
    rw [newlineChop, if_pos h2', List.drop_append_of_le_length hlen,
      ← Option.some.injEq r _ |>.mp hr]
  · by_cases h1 : l.take 1 = ['\n']
    · obtain ⟨a, z, rfl⟩ : ∃ a z, l = a :: z := by
        cases l with
        | nil => simp [List.take] at h1
        | cons a z => exact ⟨a, z, rfl⟩
      have ha : a = '\n' := by simpa [List.take] using h1
      subst ha
      have hr : some r = some z := by simpa [newlineChop, h2, h1] using h.symm
      have hc2 : ('\n' :: (z ++ ext)).take 2 ≠ ['\r', '\n'] := by
        cases z <;> cases ext <;> simp [List.take]
      show newlineChop ('\n' :: (z ++ ext)) = some (r ++ ext)
      rw [newlineChop, if_neg hc2, if_pos (by simp [List.take]),
        ← Option.some.injEq r _ |>.mp hr]
      rfl
    · simp [newlineChop, h2, h1] at h

lemma openAfterTicks_ne_nil {q r : List Char} (h : openAfterTicks q = some r) : q ≠ [] := by
  rintro rfl
  simp [openAfterTicks, newlineChop] at h

lemma openAfterTicks_append {q r : List Char} (ext : List Char)
    (h : openAfterTicks q = some r) :
    openAfterTicks (q ++ ext) = some (r ++ ext) := by
  by_cases h6 : q.take 6 = ("python").toList
  · have hlen : 6 ≤ q.length := by
      have := congrArg List.length h6
      simp [List.length_take] at this
      omega
    have h6' : (q ++ ext).take 6 = ("python").toList := by
      rw [List.take_append_of_le_length hlen]; exact h6
    have h' : newlineChop ((q.drop 6).dropWhile isBlank) = some r := by
      unfold openAfterTicks at h
      rwa [if_pos h6] at h
    have hne : ((q.drop 6).dropWhile isBlank).isEmpty = false := by
      cases hh : (q.drop 6).dropWhile isBlank with
      | nil => exact absurd hh (newlineChop_ne_nil h')
      | cons a b => rfl
    rw [openAfterTicks, if_pos h6', List.drop_append_of_le_length hlen]
    rw [List.dropWhile_append, hne]
    simpa using newlineChop_append ext h'
  · have h' : newlineChop (q.dropWhile isBlank) = some r := by
      unfold openAfterTicks at h
      rwa [if_neg h6] at h
    obtain ⟨a, as, rfl⟩ : ∃ a as, q = a :: as := by
      cases q with
      | nil => exact absurd rfl (openAfterTicks_ne_nil h)
      | cons a as => exact ⟨a, as, rfl⟩
    have h6' : ((a :: as) ++ ext).take 6 ≠ ("python").toList := by
      intro hcon
      have ha : a = 'p' := by
        have : a :: ((as ++ ext).take 5) = ("python").toList := by
          simpa [List.take] using hcon
        exact (List.cons.injEq .. ▸ this).1
      subst ha
      have hq : ('p' :: as).dropWhile isBlank = 'p' :: as := by
        simp [List.dropWhile_cons, isBlank]
      rw [hq] at h'
      simp [newlineChop, List.take] at h'
    have hne : ((a :: as).dropWhile isBlank).isEmpty = false := by
      cases hh : (a :: as).dropWhile isBlank with
      | nil => exact absurd hh (newlineChop_ne_nil h')
      | cons x y => rfl
    rw [openAfterTicks, if_neg h6']
    rw [List.dropWhile_append, hne]
    simpa using newlineChop_append ext h'

lemma openRemainder_append {p r : List Char} (ext : List Char)
    (h : openRemainder p = some r) :
    openRemainder (p ++ ext) = some (r ++ ext) := by
  have hst : startsTicks p = true := by
    by_contra hns
    rw [openRemainder_none_of_not_ticks (Bool.not_eq_true _ ▸ hns :)] at h
    exact absurd h (by simp)
  obtain ⟨q, rfl⟩ := startsTicks_iff.mp hst
  have hat : openAfterTicks q = some r := by
    simpa [openRemainder, hst] using h
  have hst' : startsTicks (('`' :: '`' :: '`' :: q) ++ ext) = true :=
    startsTicks_append ext hst
  have hgoal : openAfterTicks (q ++ ext) = some (r ++ ext) := openAfterTicks_append ext hat
  show openRemainder (('`' :: '`' :: '`' :: q) ++ ext) = some (r ++ ext)
  rw [openRemainder, if_pos hst']
  exact hgoal

lemma startsTicks_cons3_append (a b c : Char) (t ext : List Char) :
    startsTicks (a :: b :: c :: (t ++ ext)) = startsTicks (a :: b :: c :: t) := by
  simp [startsTicks, ticksList, List.isPrefixOf]

lemma takeBeforeTicks_min_length {l cap : List Char} (h : takeBeforeTicks l = some cap) :
    3 ≤ l.length := by
  obtain ⟨rest, hrest, hst⟩ := takeBeforeTicks_decomp h
  obtain ⟨t, ht⟩ := startsTicks_iff.mp hst
  subst ht
  rw [hrest]
  simp
  omega

lemma takeBeforeTicks_append {l cap : List Char} (ext : List Char)
    (h : takeBeforeTicks l = some cap) :
    takeBeforeTicks (l ++ ext) = some cap := by
  induction l generalizing cap with
  | nil => simp [takeBeforeTicks] at h
  | cons c cs ih =>
    cases hct : startsTicks (c :: cs) with
    | true =>
      have hcap : cap = [] := by simpa [takeBeforeTicks, hct] using h.symm
      have hst : startsTicks (c :: (cs ++ ext)) = true := by
        simpa using startsTicks_append ext hct
      show takeBeforeTicks (c :: (cs ++ ext)) = some cap
      simp [takeBeforeTicks, hst, hcap]
    | false =>
      have h' : (takeBeforeTicks cs).map (fun t => c :: t) = some cap := by
        simpa [takeBeforeTicks, hct] using h
      obtain ⟨t, ht, hcap⟩ := Option.map_eq_some'.mp h'
      have hf : startsTicks (c :: (cs ++ ext)) = false := by
        obtain ⟨d, e, es, rfl⟩ : ∃ d e es, cs = d :: e :: es := by
          have h3 := takeBeforeTicks_min_length ht
          match cs, h3 with
          | d :: e :: es, _ => exact ⟨d, e, es, rfl⟩
        rw [show c :: ((d :: e :: es) ++ ext) = c :: d :: e :: (es ++ ext) from rfl,
          startsTicks_cons3_append]
        exact hct
      show takeBeforeTicks (c :: (cs ++ ext)) = some cap
      rw [takeBeforeTicks, if_neg (by simp [hf]), ih ht]
      simp [hcap]

lemma matchAt_nil : matchAt [] = none := rfl

lemma matchAt_append {p cap : List Char} (ext : List Char) (h : matchAt p = some cap) :
    matchAt (p ++ ext) = some cap := by
  obtain ⟨r, hro, htb⟩ := Option.bind_eq_some.mp h
  unfold matchAt
  rw [openRemainder_append ext hro]
  simpa using takeBeforeTicks_append ext htb

lemma searchFence_none_append_right {a b : List Char}
    (h : searchFence (a ++ b) = none) : searchFence b = none := by
  refine searchFence_eq_none (fun n => ?_)
  have := searchFence_none_forall h (a.length + n)
  rwa [List.drop_append] at this

lemma searchFence_none_append_left {a b : List Char}
    (h : searchFence (a ++ b) = none) : searchFence a = none := by
  refine searchFence_eq_none (fun n => ?_)
  cases hm : matchAt (a.drop n) with
  | none => rfl
  | some cap =>
    by_cases hn : n ≤ a.length
    · have h1 : matchAt ((a ++ b).drop n) = some cap := by
        rw [List.drop_append_of_le_length hn]
        exact matchAt_append b hm
      rw [searchFence_none_forall h n] at h1
      exact absurd h1 (by simp)
    · rw [List.drop_eq_nil_of_le (Nat.le_of_not_le hn)] at hm
      exact absurd hm (by simp [matchAt_nil])

lemma searchFence_pyStrip_none {l : List Char} (h : searchFence l = none) :
    searchFence (pyStripList l) = none := by
  obtain ⟨a, ha⟩ := trimLeft_suffix_decomp l
  have h1 : searchFence (trimLeft l) = none := searchFence_none_append_right (ha ▸ h)
  obtain ⟨b, hb⟩ := trimRight_prefix_decomp (trimLeft l)
  exact searchFence_none_append_left (hb ▸ h1)

/-- C5: the extractor is idempotent — extracting from an already extracted
string returns it unchanged, for every input string.  When a fence is found,
the capture contains no triple backtick, so the second pass finds no fence
and merely re-strips an already stripped string; when no fence is found, the
first pass only strips, which cannot create a fence. -/
theorem extract_idempotent (x : String) :
    _extract_code_from_response (_extract_code_from_response x)
      = _extract_code_from_response x := by
  cases hs : searchFence x.toList with
  | some cap =>
    have h1 := extract_of_searchFence_some hs
    obtain ⟨n, hn, -⟩ := searchFence_some_leftmost hs
    obtain ⟨r, hro, htb⟩ := Option.bind_eq_some.mp hn
    have hnt : NoTicks (pyStripList cap) := noTicks_pyStrip (takeBeforeTicks_noTicks htb)
    have hnone : searchFence ((⟨pyStripList cap⟩ : String)).toList = none :=
      searchFence_none_of_noTicks hnt
    rw [h1, extract_of_searchFence_none hnone]
    show (⟨pyStripList (pyStripList cap)⟩ : String) = ⟨pyStripList cap⟩
    rw [pyStripList_idem]
  | none =>
    have h1 := extract_of_searchFence_none hs
    have hnone : searchFence ((⟨pyStripList x.toList⟩ : String)).toList = none :=
      searchFence_pyStrip_none hs
    rw [h1, extract_of_searchFence_none hnone]
    show (⟨pyStripList (pyStripList x.toList)⟩ : String) = ⟨pyStripList x.toList⟩
    rw [pyStripList_idem]

/-! ### Sandbox executor

Embeds `_execute_function_safely_using_exec`
(src/backend/helpers/code_executor.py, lines 14-71).  The executed source is
modelled after parsing, as a list of top-level statements in a mini-language
sufficient for the claims under verification: function definitions with a
constant-or-variable return expression, and assignments.  `exec` with two
distinct dictionaries follows CPython semantics: a top-level binding (def or
assignment) goes into the locals mapping, name lookup tries locals, then
globals, then the builtins table installed under the key `__builtins__` of
the globals dictionary.  A module-level function called later sees the
globals dictionary it captured and a fresh empty local scope, not the
lingering exec locals.  Host objects (the pandas, re and datetime handles and
the builtin functions) are opaque `vHost` values; dictionaries are
association lists where the most recent binding shadows older ones. -/

inductive PExpr where
  | litNone : PExpr
  | litNat : Nat → PExpr
  | litStr : String → PExpr
  | var : String → PExpr
deriving DecidableEq, Repr

inductive PValue where
  | vNone : PValue
  | vNat : Nat → PValue
  | vStr : String → PValue
  | vFunc : PExpr → PValue
  | vHost : String → PValue
deriving DecidableEq, Repr

inductive PStmt where
  | defFun : String → PExpr → PStmt
  | assign : String → PExpr → PStmt
deriving DecidableEq, Repr

abbrev NS := List (String × PValue)

def nsSet (ns : NS) (x : String) (v : PValue) : NS := (x, v) :: ns

def nsGet (ns : NS) (x : String) : Option PValue :=
  (ns.find? (fun p => p.1 == x)).map Prod.snd

/-- A single-quoted rendering of `s`, as produced by a Python f-string with
quotes around the interpolation. -/
def quoteStr (s : String) : String := ⟨'\x27' :: (s.toList ++ ['\x27'])⟩

/-- The keys of the `__builtins__` entry of the whitelist dictionary in
src/backend/helpers/code_executor.py, lines 30-52, in source order. -/
def safeBuiltinNames : List String :=
  ["__import__", "len", "range", "str", "int", "float", "list", "dict",
   "tuple", "set", "print", "sum", "max", "min", "abs", "round",
   "enumerate", "zip", "sorted", "any", "all"]

/-- The keys of the `__builtins__` entry of the whitelist dictionary in the
second executor variant, src/backend/code_executor.py, lines 16-27. -/
def backendBuiltinNames : List String :=
  ["__import__", "len", "range", "str", "int", "float", "list", "dict", "print"]

/-- The non-builtin entries of the whitelist dictionary
(src/backend/helpers/code_executor.py, lines 53-59), constructed afresh on
every call.  The source dictionary literal binds the key `datetime` twice
(line 55 to the datetime module, line 57 to the datetime.datetime class);
per Python dict-literal semantics the second value wins while the key keeps
its first position, which is reflected here. -/
def freshSafeGlobals : NS :=
  [("pd", .vHost ("pandas")),
   ("re", .vHost ("re")),
   ("datetime", .vHost ("datetime.datetime")),
   ("date", .vHost ("datetime.date")),
   ("timedelta", .vHost ("datetime.timedelta")),
   ("read_sheet_with_custom_header", .vHost ("read_sheet_with_custom_header"))]

/-- The non-builtin entries of the whitelist of the second executor variant
(src/backend/code_executor.py, lines 15-29). -/
def backendSafeGlobals : NS := [("pd", .vHost ("pandas"))]

/-- Name resolution during top-level `exec`: locals, then globals, then the
builtins table of the (helpers-variant) whitelist. -/
def lookupName (g l : NS) (x : String) : Option PValue :=
  match nsGet l x with
  | some v => some v
  | none =>
    match nsGet g x with
    | some v => some v
    | none => if safeBuiltinNames.contains x then some (.vHost x) else none

def evalPExpr (g l : NS) : PExpr → Except String PValue
  | .litNone => .ok .vNone
  | .litNat n => .ok (.vNat n)
  | .litStr s => .ok (.vStr s)
  | .var x =>
    match lookupName g l x with
    | some v => .ok v
    | none => .error ("NameError: name " ++ quoteStr x ++ " is not defined")

/-- One top-level statement under `exec(code, safe_globals, local_vars)`:
both a `def` and an assignment bind the name in the locals mapping. -/
def execStmt (g l : NS) : PStmt → Except String (NS × NS)
  | .defFun n body => .ok (g, nsSet l n (.vFunc body))
  | .assign n rhs => (evalPExpr g l rhs).map (fun v => (g, nsSet l n v))

def execStmts (g l : NS) : List PStmt → Except String (NS × NS)
  | [] => .ok (g, l)
  | st :: rest =>
    match execStmt g l st with
    | .error e => .error e
    | .ok gl => execStmts gl.1 gl.2 rest

/-- Calling a value with zero arguments (line 69 of the source,
`local_vars[function_name]()`).  A module-level function runs with a fresh
empty local scope and the globals dictionary it captured; calling a
non-callable raises a TypeError. -/
def callValue (g : NS) : PValue → Except String PValue
  | .vFunc body => evalPExpr g [] body
  | _ => .error ("TypeError: object is not callable")

/-- src/backend/helpers/code_executor.py, lines 29-71, after extraction: a
fresh whitelist dictionary and a fresh empty locals dictionary are built,
the source is executed over them, the entry point is looked up in the locals
and called with zero arguments. -/
def _execute_function_safely_using_exec (src : List PStmt) (function_name : String) :
    Except String PValue :=
  match execStmts freshSafeGlobals [] src with
  | .error e => .error e
  | .ok gl =>
    match nsGet gl.2 function_name with
    | none => .error ("Function " ++ quoteStr function_name ++ " not found")
    | some v => callValue gl.1 v

/-- The namespaces a call leaves behind, threaded explicitly to state the
isolation claim.  The executor never reads the incoming state: the whitelist
dictionary literal is inside the function body, so it is rebuilt per call. -/
structure ExecState where
  globals : NS
  locals : NS
deriving DecidableEq, Repr

def executeWithState (_st : ExecState) (src : List PStmt) (function_name : String) :
    Except String PValue × ExecState :=
  match execStmts freshSafeGlobals [] src with
  | .error e => (.error e, ⟨freshSafeGlobals, []⟩)
  | .ok gl =>
    match nsGet gl.2 function_name with
    | none => (.error ("Function " ++ quoteStr function_name ++ " not found"), ⟨gl.1, gl.2⟩)
    | some v => (callValue gl.1 v, ⟨gl.1, gl.2⟩)

def demoOtherSrc : List PStmt := [.defFun ("other") .litNone]

def demoHelperSrc : List PStmt := [.defFun ("helper") (.litNat 1), .defFun ("f") (.litNat 2)]

example : _execute_function_safely_using_exec [.defFun ("f") (.litNat 6)] ("f")
    = .ok (.vNat 6) := by rfl

/-- C1, counterexample.  The claim states that the restricted global
namespace contains no generic import primitive; in fact the `__builtins__`
table of both executor variants explicitly whitelists `__import__`, the
reflective import-by-name primitive, so generated code can import arbitrary
modules by name. -/
theorem whitelist_import_counterexample :
    safeBuiltinNames.contains ("__import__") = true
    ∧ backendBuiltinNames.contains ("__import__") = true := by
  decide

/-- C1, amended.  The whitelist of either executor variant exposes no
file-open (`open`), code-evaluation (`eval`, `exec`, `compile`) or attribute
introspection (`getattr`) primitive, and no key of the non-builtin part is
such a primitive either — but it does expose the generic import primitive
`__import__`. -/
theorem whitelist_amended :
    safeBuiltinNames.contains ("open") = false
    ∧ safeBuiltinNames.contains ("eval") = false
    ∧ safeBuiltinNames.contains ("exec") = false
    ∧ safeBuiltinNames.contains ("compile") = false
    ∧ safeBuiltinNames.contains ("getattr") = false
    ∧ backendBuiltinNames.contains ("open") = false
    ∧ backendBuiltinNames.contains ("eval") = false
    ∧ backendBuiltinNames.contains ("exec") = false
    ∧ (freshSafeGlobals.map Prod.fst).contains ("open") = false
    ∧ (backendSafeGlobals.map Prod.fst).contains ("open") = false
    ∧ safeBuiltinNames.contains ("__import__") = true
    ∧ backendBuiltinNames.contains ("__import__") = true := by
  decide

/-- C2, counterexample.  Executing a source that defines only `other` and
asking for entry point `target` raises the message naming `target`, but that
message does not list `other` (or any bound name) as an available
alternative, contrary to the claim. -/
theorem lookup_failure_counterexample :
    _execute_function_safely_using_exec demoOtherSrc ("target")
      = .error ("Function " ++ quoteStr ("target") ++ " not found")
    ∧ ¬ (("other").toList <:+:
        ("Function " ++ quoteStr ("target") ++ " not found").toList) := by
  constructor
  · rfl
  · decide

/-- C2, amended.  Whenever execution of the source succeeds and the entry
point name is not bound in the definition namespace, the executor raises a
Lookup Failure whose message names the missing function — but the message
does not list the names that were bound. -/
theorem lookup_failure_amended (src : List PStmt) (n : String) (g l : NS)
    (hexec : execStmts freshSafeGlobals [] src = .ok (g, l))
    (hmiss : nsGet l n = none) :
    _execute_function_safely_using_exec src n
      = .error ("Function " ++ quoteStr n ++ " not found") := by
  simp [_execute_function_safely_using_exec, hexec, hmiss]

/-- Witness for `lookup_failure_amended` at the source defining `other`. -/
theorem lookup_failure_amended_witness :
    _execute_function_safely_using_exec demoOtherSrc ("target")
      = .error ("Function " ++ quoteStr ("target") ++ " not found") :=
  lookup_failure_amended demoOtherSrc ("target") freshSafeGlobals
    [(("other"), PValue.vFunc .litNone)] (by rfl) (by rfl)

/-- Every name a statement list binds at top level. -/
def definedNames : List PStmt → List String
  | [] => []
  | .defFun n _ :: rest => n :: definedNames rest
  | .assign n _ :: rest => n :: definedNames rest

lemma nsGet_set_isSome {l : NS} {x : String} (n : String) (v : PValue)
    (h : (nsGet l x).isSome = true) : (nsGet (nsSet l n v) x).isSome = true := by
  cases hbeq : n == x with
  | true => simp [nsGet, nsSet, List.find?, hbeq]
  | false => simpa [nsGet, nsSet, List.find?, hbeq] using h

lemma nsGet_set_self (l : NS) (n : String) (v : PValue) :
    (nsGet (nsSet l n v) n).isSome = true := by
  simp [nsGet, nsSet, List.find?]

lemma execStmts_preserves_binding {src : List PStmt} {g l g' l' : NS}
    (h : execStmts g l src = .ok (g', l')) (x : String)
    (hx : (nsGet l x).isSome = true) : (nsGet l' x).isSome = true := by
  induction src generalizing g l with
  | nil =>
    obtain ⟨-, rfl⟩ : g' = g ∧ l' = l := by
      have := h
      simp [execStmts] at this
      exact ⟨this.1.symm, this.2.symm⟩
    exact hx
  | cons st rest ih =>
    cases st with
    | defFun n body =>
      have h' : execStmts g (nsSet l n (.vFunc body)) rest = .ok (g', l') := by
        simpa [execStmts, execStmt] using h
      exact ih h' (nsGet_set_isSome n _ hx)
    | assign n rhs =>
      cases heval : evalPExpr g l rhs with
      | error e => simp [execStmts, execStmt, heval, Except.map] at h
      | ok v =>
        have h' : execStmts g (nsSet l n v) rest = .ok (g', l') := by
          simpa [execStmts, execStmt, heval, Except.map] using h
        exact ih h' (nsGet_set_isSome n _ hx)

/-- C3, counterexample.  The claim asserts that any additional top-level
function the source defines is bound into the global (whitelist) namespace.
Executing a source defining `helper` and `f` leaves the global namespace
exactly the fresh whitelist, with `helper` absent from it; both functions
land in the local definition namespace instead. -/
theorem exec_binds_locals_counterexample :
    execStmts freshSafeGlobals [] demoHelperSrc
      = .ok (freshSafeGlobals,
          [(("f"), PValue.vFunc (.litNat 2)), (("helper"), PValue.vFunc (.litNat 1))])
    ∧ nsGet freshSafeGlobals ("helper") = none := by
  constructor
  · rfl
  · rfl

/-- C3, amended.  Under `exec` with separate global and local dictionaries,
execution leaves the global whitelist namespace unchanged; every top-level
function or variable the source defines is bound into the local/definition
namespace, which starts empty in the executor. -/
theorem exec_binds_locals_amended (src : List PStmt) (g l g' l' : NS)
    (h : execStmts g l src = .ok (g', l')) :
    g' = g ∧ ∀ n, n ∈ definedNames src → (nsGet l' n).isSome = true := by
  induction src generalizing g l with
  | nil =>
    have hp : g = g' ∧ l = l' := by simpa [execStmts] using h
    exact ⟨hp.1.symm, by simp [definedNames]⟩
  | cons st rest ih =>
    cases st with
    | defFun n body =>
      have h' : execStmts g (nsSet l n (.vFunc body)) rest = .ok (g', l') := by
        simpa [execStmts, execStmt] using h
      refine ⟨(ih _ _ h').1, fun m hm => ?_⟩
      rcases List.mem_cons.mp hm with rfl | hmem
      · exact execStmts_preserves_binding h' m (nsGet_set_self l m _)
      · exact (ih _ _ h').2 m hmem
    | assign n rhs =>
      cases heval : evalPExpr g l rhs with
      | error e => simp [execStmts, execStmt, heval, Except.map] at h
      | ok v =>
        have h' : execStmts g (nsSet l n v) rest = .ok (g', l') := by
          simpa [execStmts, execStmt, heval, Except.map] using h
        refine ⟨(ih _ _ h').1, fun m hm => ?_⟩
        rcases List.mem_cons.mp hm with rfl | hmem
        · exact execStmts_preserves_binding h' m (nsGet_set_self l m _)
        · exact (ih _ _ h').2 m hmem

/-- Witness for `exec_binds_locals_amended` at the two-definition source. -/
theorem exec_binds_locals_amended_witness :
    freshSafeGlobals = freshSafeGlobals
    ∧ ∀ n, n ∈ definedNames demoHelperSrc →
        (nsGet [(("f"), PValue.vFunc (.litNat 2)), (("helper"), PValue.vFunc (.litNat 1))]
          n).isSome = true :=
  exec_binds_locals_amended demoHelperSrc freshSafeGlobals [] freshSafeGlobals
    [(("f"), PValue.vFunc (.litNat 2)), (("helper"), PValue.vFunc (.litNat 1))] (by rfl)

/-- C9: sandbox executions are isolated.  The whitelist dictionary literal is
local to the executor function, so the namespaces a previous call left
behind are never read: the result of a call is a function of its own source
and entry-point name alone, and in particular a call sequenced after any
earlier call (whose source may bind the same top-level names) returns
exactly what it would return in isolation. -/
theorem execute_isolation (st₁ st₂ : ExecState) (src : List PStmt) (n : String) :
    (executeWithState st₁ src n).1 = (executeWithState st₂ src n).1
    ∧ (executeWithState st₁ src n).1 = _execute_function_safely_using_exec src n
    ∧ ∀ (src₁ : List PStmt) (n₁ : String),
        (executeWithState (executeWithState st₁ src₁ n₁).2 src n).1
          = _execute_function_safely_using_exec src n := by
  have key : ∀ st : ExecState,
      (executeWithState st src n).1 = _execute_function_safely_using_exec src n := by
    intro st
    cases hx : execStmts freshSafeGlobals [] src with
    | error e => simp [executeWithState, _execute_function_safely_using_exec, hx]
    | ok gl =>
      cases hv : nsGet gl.2 n with
      | none => simp [executeWithState, _execute_function_safely_using_exec, hx, hv]
      | some v => simp [executeWithState, _execute_function_safely_using_exec, hx, hv]
  exact ⟨(key st₁).trans (key st₂).symm, key st₁, fun src₁ n₁ => key _⟩

/-! ### Sheet reader

Embeds `_read_sheet_with_custom_header`
(src/backend/helpers/excel_file_reader.py, lines 21-97).  The sheet is the
rectangular grid of cells pandas reads with `header=None`; cell values are
modelled as strings, so the `str(...)` coercions of the source are the
identity.  `df.iloc[start]` raises an IndexError when `start` is out of
range while slices clamp; `config or {}` followed by `config.get` supplies
the defaults start=0 and end=None; `if columns:` is false for both `None`
and an empty list.  pandas selection of a column label resolved through
`actual_header_map` is modelled positionally via the index of that header
cell, which coincides with label selection whenever header cells are
distinct strings (sheets with identically repeated header cells are outside
the model).  The dict comprehension `{normalize(col): col}` keeps, for each
normalized key, the last column bearing it, and its keys enumerate first
occurrences in order. -/

/-- `normalize` (lines 65-66): `str(col).strip().lower()`. -/
def pyNormalize (col : String) : String := ⟨pyLowerList (pyStripList col.toList)⟩

def replLF (l : List Char) : List Char := l.map (fun c => if c = '\n' then ' ' else c)

def dropCR (l : List Char) : List Char := l.filter (fun c => !(c = '\r'))

def replTab (l : List Char) : List Char := l.map (fun c => if c = '\t' then ' ' else c)

/-- Sanitization of one header cell (lines 87-90):
`str(col).strip().replace(LF, space).replace(CR, empty).replace(TAB, space).lower()`. -/
def sanitizeCol (col : String) : String :=
  ⟨pyLowerList (replTab (dropCR (replLF (pyStripList col.toList))))⟩

/-- The source `SheetConfig` TypedDict with `total=False`: both keys are
optional.  The source key `end` is reserved in Lean and is called `endRow`. -/
structure SheetConfig where
  start : Option Nat
  endRow : Option Nat
deriving DecidableEq, Repr

inductive ExcelErr where
  | indexError : Nat → ExcelErr
  | missingColumns : List String → List String → ExcelErr
  | keyError : String → ExcelErr
deriving DecidableEq, Repr

structure ReadSheetResult where
  sheet : String
  columns : List String
  rows : List (List (String × String))
deriving DecidableEq, Repr

/-- Keys of `actual_header_map` in dictionary insertion order: the first
occurrence of each normalized name. -/
def dedupFirst (l : List String) : List String :=
  l.foldl (fun acc c => if acc.contains c then acc else acc ++ [c]) []

/-- `actual_header_map[key]`, as the index of the resolved header cell: the
last position whose normalized cell equals `key` (later dict-comprehension
entries overwrite earlier ones). -/
def lookupLastIdx (hdr : List String) (key : String) : Option Nat :=
  ((hdr.enum.filter (fun p => pyNormalize p.2 == key)).getLast?).map Prod.fst

def reqNorm (cols : List String) : List String := cols.map pyNormalize

/-- `missing` (lines 71-73): normalized requested names that are truthy and
absent from the header map. -/
def missingOf (hdr : List String) (cols : List String) : List String :=
  (reqNorm cols).filter (fun c => !(c == ("")) && (lookupLastIdx hdr c).isNone)

/-- `selected_cols` (line 80): resolve every normalized requested name,
including the empty ones the missing-check skipped, which raise a KeyError. -/
def selIdxs (hdr : List String) : List String → Except ExcelErr (List Nat)
  | [] => .ok []
  | c :: cs =>
    match lookupLastIdx hdr c with
    | some i => (selIdxs hdr cs).map (fun is => i :: is)
    | none => .error (.keyError c)

/-- src/backend/helpers/excel_file_reader.py, lines 51-97: the body of the
reader once `start_row` and `end_row` have been computed. -/
def readCore (sheet : String) (grid : List (List String))
    (start_row : Nat) (end_row : Option Nat) (columns : Option (List String)) :
    Except ExcelErr ReadSheetResult :=
  match grid.get? start_row with
  | none => .error (.indexError start_row)
  | some header_row =>
    let data :=
      match end_row with
      | some e => (grid.take (e + 1)).drop (start_row + 1)
      | none => grid.drop (start_row + 1)
    match columns with
    | some (c0 :: crest) =>
      let req := reqNorm (c0 :: crest)
      let missing := missingOf header_row (c0 :: crest)
      if missing = [] then
        match selIdxs header_row req with
        | .error e => .error e
        | .ok idxs =>
          let selNames := idxs.map (fun i => header_row.getD i (""))
          let sanitised := selNames.map sanitizeCol
          .ok ⟨sheet, sanitised,
            data.map (fun r => sanitised.zip (idxs.map (fun i => r.getD i (""))))⟩
      else .error (.missingColumns missing (dedupFirst (header_row.map pyNormalize)))
    | _ =>
      let sanitised := header_row.map sanitizeCol
      .ok ⟨sheet, sanitised, data.map (fun r => sanitised.zip r)⟩

/-- src/backend/helpers/excel_file_reader.py, lines 21-97: `config or {}`
followed by `config.get` with defaults start=0 and end=None (lines 47-49),
then the reader body. -/
def _read_sheet_with_custom_header (sheet : String) (grid : List (List String))
    (config : Option SheetConfig) (columns : Option (List String)) :
    Except ExcelErr ReadSheetResult :=
  readCore sheet grid ((config.bind SheetConfig.start).getD 0)
    (config.bind SheetConfig.endRow) columns

example :
    _read_sheet_with_custom_header ("s") [[("A")], [("1")], [("2")]] none none
      = .ok ⟨("s"), [("a")], [[(("a"), ("1"))], [(("a"), ("2"))]]⟩ := by rfl

example :
    _read_sheet_with_custom_header ("s") [[("A"), ("B")], [("1"), ("2")]] none
        (some [("b"), ("a")])
      = .ok ⟨("s"), [("b"), ("a")], [[(("b"), ("2")), (("a"), ("1"))]]⟩ := by rfl

example : sanitizeCol ("Jan Rooms Revenue\n") = ("jan rooms revenue") := by rfl

/-- C7, counterexample.  The claim states that carriage-return characters
are collapsed to a single space; the source replaces them by the empty
string, so they are deleted: `a\rb` sanitizes to `ab`, not to `a b`. -/
theorem sanitize_cr_counterexample :
    sanitizeCol ("a\rb") = ("ab") ∧ sanitizeCol ("a\rb") ≠ ("a b") := by
  constructor
  · rfl
  · decide

/-- A single pass equivalent to the three successive replacements: newline
and tab each become one space, carriage returns are deleted. -/
def foldWsChar (c : Char) : Option Char :=
  if c = '\r' then none
  else if (c = '\n') || (c = '\t') then some ' '
  else some c

lemma replLF_cons (c : Char) (cs : List Char) :
    replLF (c :: cs) = (if c = '\n' then ' ' else c) :: replLF cs := rfl

lemma replTab_cons (c : Char) (cs : List Char) :
    replTab (c :: cs) = (if c = '\t' then ' ' else c) :: replTab cs := rfl

lemma dropCR_cons (c : Char) (cs : List Char) :
    dropCR (c :: cs) = if c = '\r' then dropCR cs else c :: dropCR cs := by
  by_cases h : c = '\r' <;> simp [dropCR, List.filter_cons, h]

lemma replTab_dropCR_replLF (l : List Char) :
    replTab (dropCR (replLF l)) = l.filterMap foldWsChar := by
  induction l with
  | nil => rfl
  | cons c cs ih =>
    rw [replLF_cons, List.filterMap_cons]
    by_cases h1 : c = '\n'
    · subst h1
      rw [if_pos rfl, dropCR_cons, if_neg (by decide), replTab_cons, if_neg (by decide), ih]
      simp [foldWsChar]
    · rw [if_neg h1]
      by_cases h2 : c = '\r'
      · subst h2
        rw [dropCR_cons, if_pos rfl, ih]
        simp [foldWsChar]
      · rw [dropCR_cons, if_neg h2, replTab_cons]
        by_cases h3 : c = '\t'
        · subst h3
          rw [if_pos rfl, ih]
          simp [foldWsChar]
        · rw [if_neg h3, ih]
          simp [foldWsChar, h1, h2, h3]

/-- C7, amended.  The sanitizer trims the cell, then in one logical pass
replaces each newline and each tab by a single space and deletes each
carriage return, and lowercases; in particular the header cell
`Jan Rooms Revenue` with a trailing newline sanitizes to
`jan rooms revenue`. -/
theorem sanitize_amended (s : String) :
    sanitizeCol s = ⟨pyLowerList ((pyStripList s.toList).filterMap foldWsChar)⟩
    ∧ sanitizeCol ("Jan Rooms Revenue\n") = ("jan rooms revenue") := by
  refine ⟨?_, rfl⟩
  unfold sanitizeCol
  rw [replTab_dropCR_replLF]

def grid4 : List (List String) := [[("h0")], [("h1")], [("h2")], [("d3")]]

/-- C6, counterexample.  The claim promises exactly the rows with indices
3 through 5 regardless of the total number of rows.  On a sheet with four
rows, start=2, end=5, the reader returns a single data row (row 3) because
the slice clamps at the end of the sheet. -/
theorem read_slice_counterexample :
    _read_sheet_with_custom_header ("s") grid4 (some ⟨some 2, some 5⟩) none
      = .ok ⟨("s"), [("h2")], [[(("h2"), ("d3"))]]⟩
    ∧ ([[(("h2"), ("d3"))]] : List (List (String × String))).length ≠ 3 := by
  constructor
  · rfl
  · decide

lemma slice_eq_range_map {α : Type} (grid : List α) (d : α) (s e : Nat)
    (hse : s ≤ e) (he : e < grid.length) :
    (grid.take (e + 1)).drop (s + 1)
      = (List.range (e - s)).map (fun i => grid.getD (s + 1 + i) d) := by
  apply List.ext_getElem
  · simp only [List.length_drop, List.length_take, List.length_map, List.length_range]
    omega
  · intro i h1 h2
    have hi : i < e - s := by simpa using h2
    have hidx : s + 1 + i < grid.length := by omega
    simp only [List.getElem_drop, List.getElem_take, List.getElem_map, List.getElem_range,
      List.getD_eq_getElem?_getD, List.getElem?_eq_getElem hidx, Option.getD_some]

/-- C6, amended.  With start=`s` and end=`e` configured, `s ≤ e`, and a
sheet with more than `e` rows, the reader uses row `s` as the header and
returns exactly the data rows with indices `s+1` through `e` inclusive; with
end absent it returns all rows after the header row.  (When the sheet has at
most `e` rows the slice clamps, per the counterexample.) -/
theorem read_slice_amended (sheet : String) (grid : List (List String)) (s e : Nat)
    (hse : s ≤ e) (he : e < grid.length) :
    (∃ hdr, grid.get? s = some hdr
      ∧ _read_sheet_with_custom_header sheet grid (some ⟨some s, some e⟩) none
          = .ok ⟨sheet, hdr.map sanitizeCol,
              (List.range (e - s)).map
                (fun i => (hdr.map sanitizeCol).zip (grid.getD (s + 1 + i) []))⟩)
    ∧ ∀ hdr, grid.get? s = some hdr →
        _read_sheet_with_custom_header sheet grid (some ⟨some s, none⟩) none
          = .ok ⟨sheet, hdr.map sanitizeCol,
              (grid.drop (s + 1)).map (fun r => (hdr.map sanitizeCol).zip r)⟩ := by
  constructor
  · have hs : s < grid.length := Nat.lt_of_le_of_lt hse he
    have hget : grid.get? s = some (grid[s]) := by
      simp [List.get?_eq_getElem?, List.getElem?_eq_getElem hs]
    refine ⟨grid[s], hget, ?_⟩
    show readCore sheet grid s (some e) none = _
    simp only [readCore, hget]
    rw [slice_eq_range_map grid [] s e hse he]
    simp [List.map_map, Function.comp]
  · intro hdr hget
    show readCore sheet grid s none none = _
    simp only [readCore, hget]

def grid6 : List (List String) :=
  [[("h0")], [("h1")], [("h2")], [("d3")], [("d4")], [("d5")]]

/-- Witness for `read_slice_amended` on a six-row sheet with start=2, end=5. -/
theorem read_slice_amended_witness :
    (∃ hdr, grid6.get? 2 = some hdr
      ∧ _read_sheet_with_custom_header ("s") grid6 (some ⟨some 2, some 5⟩) none
          = .ok ⟨("s"), hdr.map sanitizeCol,
              (List.range (5 - 2)).map
                (fun i => (hdr.map sanitizeCol).zip (grid6.getD (2 + 1 + i) []))⟩)
    ∧ ∀ hdr, grid6.get? 2 = some hdr →
        _read_sheet_with_custom_header ("s") grid6 (some ⟨some 2, none⟩) none
          = .ok ⟨("s"), hdr.map sanitizeCol,
              (grid6.drop (2 + 1)).map (fun r => (hdr.map sanitizeCol).zip r)⟩ :=
  read_slice_amended ("s") grid6 2 5 (by decide) (by decide)

/-- C10: an omitted config, or a config without the start key, does not make
the reader fail — start defaults to 0 and end to absent.  A reader call with
config omitted behaves exactly as one with start=0 and no end; a config
lacking only start behaves as the same config with start=0; and on a
nonempty sheet the call with everything defaulted succeeds, using row 0 as
the header and returning all remaining rows. -/
theorem read_defaults (sheet : String) (grid : List (List String))
    (cols : Option (List String)) (h : grid ≠ []) :
    _read_sheet_with_custom_header sheet grid none cols
      = _read_sheet_with_custom_header sheet grid (some ⟨some 0, none⟩) cols
    ∧ (∀ e, _read_sheet_with_custom_header sheet grid (some ⟨none, e⟩) cols
        = _read_sheet_with_custom_header sheet grid (some ⟨some 0, e⟩) cols)
    ∧ ∃ r, _read_sheet_with_custom_header sheet grid none none = .ok r
        ∧ r.rows.length = grid.length - 1 := by
  refine ⟨rfl, fun e => rfl, ?_⟩
  obtain ⟨hd, tl, rfl⟩ : ∃ hd tl, grid = hd :: tl := by
    cases grid with
    | nil => exact absurd rfl h
    | cons hd tl => exact ⟨hd, tl, rfl⟩
  exact ⟨⟨sheet, hd.map sanitizeCol, tl.map (fun r => (hd.map sanitizeCol).zip r)⟩,
    rfl, by simp⟩

def grid1 : List (List String) := [[("h")], [("v")]]

/-- Witness for `read_defaults` on a two-row sheet. -/
theorem read_defaults_witness :
    _read_sheet_with_custom_header ("s") grid1 none none
      = _read_sheet_with_custom_header ("s") grid1 (some ⟨some 0, none⟩) none
    ∧ (∀ e, _read_sheet_with_custom_header ("s") grid1 (some ⟨none, e⟩) none
        = _read_sheet_with_custom_header ("s") grid1 (some ⟨some 0, e⟩) none)
    ∧ ∃ r, _read_sheet_with_custom_header ("s") grid1 none none = .ok r
        ∧ r.rows.length = grid1.length - 1 :=
  read_defaults ("s") grid1 none (by decide)

def grid8 : List (List String) := [[("A\tB")], [("v")]]

/-- C8, counterexample.  The claim states requested names are normalized the
same way as the header sanitizer.  The sanitizer maps the header cell
`A<tab>B` to `a b`, yet requesting exactly `a b` raises the Missing-Column
failure, because requested names and header cells are only trimmed and
lowercased (tabs are not collapsed) when they are matched. -/
theorem read_columns_counterexample :
    _read_sheet_with_custom_header ("s") grid8 none (some [("a b")])
      = .error (.missingColumns [("a b")] [("a\tb")])
    ∧ sanitizeCol ("A\tB") = ("a b") := by
  constructor
  · rfl
  · rfl

lemma selIdxs_ok {hdr : List String} {req : List String}
    (h : ∀ c ∈ req, (lookupLastIdx hdr c).isSome = true) :
    selIdxs hdr req = .ok (req.map (fun c => (lookupLastIdx hdr c).getD 0)) := by
  induction req with
  | nil => rfl
  | cons c cs ih =>
    obtain ⟨i, hi⟩ := Option.isSome_iff_exists.mp (h c (by simp))
    have ihr := ih (fun d hd => h d (List.mem_cons_of_mem _ hd))
    simp [selIdxs, hi, ihr, Except.map]

/-- C8, amended.  Requested names are normalized by trimming and lowercasing
only (without the newline/tab collapsing of the sanitizer) and matched against the
trimmed-lowercased raw header cells.  When any nonempty normalized requested
name is absent, the reader fails with the Missing-Column error listing the
missing names and the full available set; when every requested name is
nonempty after normalization and resolves, the reader succeeds and its
columns are exactly the requested columns, resolved and sanitized, in the
order requested. -/
theorem read_columns_amended (sheet : String) (grid : List (List String))
    (c0 : String) (crest : List String) (hdr : List String)
    (hget : grid.get? 0 = some hdr) :
    (missingOf hdr (c0 :: crest) ≠ [] →
      _read_sheet_with_custom_header sheet grid none (some (c0 :: crest))
        = .error (.missingColumns (missingOf hdr (c0 :: crest))
            (dedupFirst (hdr.map pyNormalize))))
    ∧ ((∀ c ∈ reqNorm (c0 :: crest), ¬c = ("") ∧ (lookupLastIdx hdr c).isSome = true) →
      ∃ r, _read_sheet_with_custom_header sheet grid none (some (c0 :: crest)) = .ok r
        ∧ r.columns = (reqNorm (c0 :: crest)).map
            (fun c => sanitizeCol (hdr.getD ((lookupLastIdx hdr c).getD 0) ("")))) := by
  constructor
  · intro hm
    show readCore sheet grid 0 none (some (c0 :: crest)) = _
    simp only [readCore, hget]
    rw [if_neg hm]
  · intro hall
    have hmiss : missingOf hdr (c0 :: crest) = [] := by
      rw [missingOf, List.filter_eq_nil_iff]
      intro c hc
      obtain ⟨i, hi⟩ := Option.isSome_iff_exists.mp (hall c hc).2
      simp [hi]
    have hsel := selIdxs_ok (fun c hc => (hall c hc).2)
    show ∃ r, readCore sheet grid 0 none (some (c0 :: crest)) = .ok r ∧ _
    simp only [readCore, hget]
    rw [if_pos hmiss, hsel]
    refine ⟨_, rfl, ?_⟩
    simp [List.map_map, Function.comp]

def grid9 : List (List String) := [[("A"), ("B")], [("1"), ("2")]]

/-- Witness for `read_columns_amended`: requesting `b` then `a` against the
header `A`, `B` succeeds and projects in the requested order. -/
theorem read_columns_amended_witness :
    ∃ r, _read_sheet_with_custom_header ("s") grid9 none (some [("b"), ("a")]) = .ok r
      ∧ r.columns = (reqNorm [("b"), ("a")]).map
          (fun c => sanitizeCol
            (([("A"), ("B")] : List String).getD
              ((lookupLastIdx [("A"), ("B")] c).getD 0) (""))) :=
  (read_columns_amended ("s") grid9 ("b") [("a")] [("A"), ("B")] (by rfl)).2 (by decide)

end OtelAI
